import Mathlib

/-!
Verification of the nested-assembly engine of `src/parquet/arrow/reader.cc`
(parquet-cpp Arrow reader).  The C++ source is embedded shallowly: machine
integers become `Int`/`Nat` with explicit wrap-around where it matters,
loops become structural recursions over lists, out-parameters become return
values, and fallible calls return `Option`/`Except`.
-/

namespace ParquetArrow

/-! ### Int96 timestamp conversion (`impala_timestamp_to_nanoseconds`)

The C++ `Int96` is three little-endian `uint32` words; `value[2]` holds the
Julian day count and the low two words, reinterpreted as one `int64`, hold
the nanoseconds within the day. -/

/-- `constexpr int64_t kJulianToUnixEpochDays = 2440588LL;` -/
def kJulianToUnixEpochDays : Int := 2440588

/-- `constexpr int64_t kNanosecondsInADay = 86400LL * 1000LL * 1000LL * 1000LL;` -/
def kNanosecondsInADay : Int := 86400 * 1000 * 1000 * 1000

/-- Two's-complement wrap-around of an integer into the `int64` range. -/
def wrap64 (z : Int) : Int := (z + 2 ^ 63) % 2 ^ 64 - 2 ^ 63

/-- Reinterpret a 64-bit pattern (given as a `Nat`) as a signed `int64`. -/
def int64OfBits (n : Nat) : Int :=
  if n % 2 ^ 64 < 2 ^ 63 then ((n % 2 ^ 64 : Nat) : Int)
  else ((n % 2 ^ 64 : Nat) : Int) - 2 ^ 64

/-- The C++ `Int96` struct: `uint32_t value[3]`, little-endian words. -/
structure Int96 where
  v0 : Nat
  v1 : Nat
  v2 : Nat
deriving DecidableEq, Repr

/-- `impala_timestamp_to_nanoseconds`: `value[2]` minus the Julian/Unix epoch
offset gives days since epoch; the low 64 bits (`value[0]` and `value[1]`
reinterpreted via the little-endian pointer cast) give the nanoseconds of the
day; the result is `days * kNanosecondsInADay + nanoseconds` in `int64`
arithmetic. -/
def impala_timestamp_to_nanoseconds (t : Int96) : Int :=
  let days_since_epoch : Int := wrap64 ((t.v2 % 2 ^ 32 : Nat) - kJulianToUnixEpochDays)
  let nanoseconds : Int := int64OfBits (t.v0 % 2 ^ 32 + (t.v1 % 2 ^ 32) * 2 ^ 32)
  wrap64 (wrap64 (days_since_epoch * kNanosecondsInADay) + nanoseconds)

/-! ### `StructImpl::GetDefLevels` — merged definition levels

The C++ code resizes a scratch buffer to the first child's level-stream
length, `memset`s it to `-1` (every `int16_t` byte-pattern `0xFFFF`, i.e. the
sentinel `-1`), and then for every child folds
`result_levels[i] = max(result_levels[i], min(child_def_levels[i], struct_def_level_))`. -/

/-- One fold step of `StructImpl::GetDefLevels`: combine the accumulated
levels with one child's definition levels. -/
def structFoldChild (structDef : Int) (result child : List Int) : List Int :=
  List.zipWith (fun r c => max r (min c structDef)) result child

/-- `StructImpl::GetDefLevels`: buffer of length `n` initialized to the `-1`
sentinel, then each child folded in with `max`/`min`. -/
def structMergedDefLevels (structDef : Int) (n : Nat) (children : List (List Int)) : List Int :=
  children.foldl (structFoldChild structDef) (List.replicate n (-1))

/-! ### File metadata and `ReadSchemaField` batch sizing

Row-group metadata is a list of row groups, each a list of per-column
`num_values` counts.  `GetColumnRoot` lives in the schema layer (not under
`src/`), so the column → top-level-field assignment is a parameter. -/

/-- `RowGroup(j)->ColumnChunk(col)->num_values()`. -/
def chunkNumValues (meta : List (List Nat)) (j col : Nat) : Nat :=
  (meta.getD j []).getD col 0

/-- The inner loop of `ReadSchemaField`'s full-file branch:
`for j in row groups: column_batch_size += num_values`. -/
def columnTotalValues (meta : List (List Nat)) (col : Nat) : Nat :=
  (List.range meta.length).foldl (fun acc j => acc + chunkNumValues meta j col) 0

/-- The column chunks of one leaf column across all row groups, in row-group
order (the stream an `AllRowGroupsIterator` yields). -/
def columnChunks (meta : List (List Nat)) (col : Nat) : List Nat :=
  meta.map (fun rg => rg.getD col 0)

/-- `FileReader::Impl::ReadSchemaField`, full-file branch (`row_group_index < 0`):
`batch_size = 0`; for each requested column index whose schema root is the
requested field, fold in `max(batch_size, Σ_j num_values(j, col))`. -/
def fullFileBatchSize (meta : List (List Nat)) (roots : Nat → Nat) (fieldRoot : Nat)
    (indices : List Nat) : Nat :=
  indices.foldl
    (fun bs col =>
      if roots col ≠ fieldRoot then bs
      else max bs (columnTotalValues meta col))
    0

/-- Claim C1's formula, written from the spec's words for comparison: "the sum
across row groups of the maximum column-chunk value count over the leaves
belonging to that subtree". -/
def specC1SumOfMaxBatchSize (meta : List (List Nat)) (roots : Nat → Nat) (fieldRoot : Nat)
    (indices : List Nat) : Nat :=
  (List.range meta.length).foldl
    (fun acc j =>
      acc + indices.foldl
        (fun m col => if roots col = fieldRoot then max m (chunkNumValues meta j col) else m)
        0)
    0

/-- The amended batch-size formula: the maximum over the field's leaves of the
sum across row groups of that leaf's column-chunk value counts. -/
def specC1MaxOfSumsBatchSize (meta : List (List Nat)) (roots : Nat → Nat) (fieldRoot : Nat)
    (indices : List Nat) : Nat :=
  indices.foldl
    (fun m col => if roots col = fieldRoot then max m (columnTotalValues meta col) else m)
    0

/-! ### `PrimitiveImpl` batch reading, and the assembler tree

A leaf assembler's mutable state: the current column chunk
(`column_reader_`, with its remaining value count) and the chunks the
iterator has not yet yielded.  `read_batch(n)` on a chunk reads
`min(n, remaining)` values (the physical reader's contract, spec §6). -/

structure PrimState where
  isNA : Bool
  columnReader : Option Nat
  chunks : List Nat
deriving DecidableEq, Repr

/-- The `while ((values_to_read > 0) && column_reader_)` loop of
`PrimitiveImpl::TypedReadBatch`: read from the current chunk; when the chunk
reports no further data (`!HasNext()`), `NextRowGroup()` advances the
iterator.  Returns (values consumed, final `column_reader_`, remaining
chunks). -/
def readLoop : Nat → Option Nat → List Nat → Nat × Option Nat × List Nat
  | _, none, pending => (0, none, pending)
  | vtr, some c, pending =>
    if vtr = 0 then (0, some c, pending)
    else if c ≤ vtr then
      match pending with
      | [] => (c, none, [])
      | q :: qs =>
        let r := readLoop (vtr - c) (some q) qs
        (c + r.1, r.2.1, r.2.2)
    else (vtr, some (c - vtr), pending)

/-- Output arrays, reduced to the structure the exhaustion and NA claims
need: lengths and nesting. -/
inductive ROut where
  | nullArray (len : Nat)
  | primitive (len : Nat)
  | listArray (child : ROut)
  | structArray (children : List ROut)

/-- `PrimitiveImpl::NextBatch`: with `column_reader_` null (all row groups
exhausted) the out-array is null; an NA-typed field yields a
`NullArray(batch_size)` without touching the reader; otherwise the typed read
loop runs. -/
def primitiveNextBatch (st : PrimState) (batchSize : Nat) : Option ROut × PrimState :=
  match st.columnReader with
  | none => (none, st)
  | some c =>
    if st.isNA then (some (.nullArray batchSize), st)
    else
      let r := readLoop batchSize (some c) st.chunks
      (some (.primitive r.1), { st with columnReader := r.2.1, chunks := r.2.2 })

/-- `PrimitiveImpl`'s constructor calls `NextRowGroup()` once, attaching the
first chunk. -/
def primFromChunks (isNA : Bool) (chunks : List Nat) : PrimState :=
  match chunks with
  | [] => ⟨isNA, none, []⟩
  | c :: rest => ⟨isNA, some c, rest⟩

/-- The assembler tree: `PrimitiveImpl` leaves, `ListImpl` with one child,
`StructImpl` with an ordered list of children. -/
inductive Asm where
  | prim (st : PrimState)
  | listNode (child : Asm)
  | structNode (children : List Asm)

mutual

/-- `NextBatch` over the assembler tree.  A list assembler returns null when
its child does (`ListImpl::NextBatch`); a struct assembler gathers children
sequentially and returns null on the first child that does
(`StructImpl::NextBatch`). -/
def asmNextBatch : Asm → Nat → Option ROut × Asm
  | .prim st, n =>
    let r := primitiveNextBatch st n
    (r.1, .prim r.2)
  | .listNode c, n =>
    let r := asmNextBatch c n
    match r.1 with
    | none => (none, .listNode r.2)
    | some a => (some (.listArray a), .listNode r.2)
  | .structNode cs, n =>
    let r := structGather cs n
    match r.1 with
    | none => (none, .structNode r.2)
    | some as_ => (some (.structArray as_), .structNode r.2)

/-- The `for (auto& child : children_)` gathering loop of
`StructImpl::NextBatch`: stop at the first child whose batch is null. -/
def structGather : List Asm → Nat → Option (List ROut) × List Asm
  | [], _ => (some [], [])
  | c :: cs, n =>
    let r := asmNextBatch c n
    match r.1 with
    | none => (none, r.2 :: cs)
    | some a =>
      let rest := structGather cs n
      match rest.1 with
      | none => (none, r.2 :: rest.2)
      | some as_ => (some (a :: as_), r.2 :: rest.2)

end

mutual

/-- The exhaustion condition of claim C5: a leaf's source is exhausted when
`column_reader_` is null; a list is exhausted when its child is; a struct is
exhausted when some child is. -/
def asmExhausted : Asm → Bool
  | .prim st => st.columnReader.isNone
  | .listNode c => asmExhausted c
  | .structNode cs => asmAnyExhausted cs

def asmAnyExhausted : List Asm → Bool
  | [] => false
  | c :: cs => asmExhausted c || asmAnyExhausted cs

end

/-! ### `StructImpl` — null synthesis and `NextBatch`

`GetTopNonRepeatedParentLevel` is declared in `parquet/util/schema-util.h`
(not under `src/`); its result (`top_parent_def_level`) is a parameter. -/

/-- `StructImpl::DefLevelsToNullArray`: a merged level below the struct's def
level appends a null bit when it reaches `top_parent_def_level` (otherwise
the slot is skipped); at or above the struct's def level it appends a set
bit. -/
def structNullBits (structDef topParent : Int) (levels : List Int) : List Bool :=
  levels.filterMap (fun d =>
    if d < structDef then
      if d ≥ topParent then some false else none
    else some true)

/-- A struct array as `StructImpl::NextBatch` assembles it: its length is the
first child array's length. -/
structure StructArrayModel where
  length : Nat
  childLengths : List Nat
  validity : Option (List Bool)
  nullCount : Nat
deriving DecidableEq, Repr

/-- `StructImpl::NextBatch` over the children's batches (each a def-level
stream plus a produced array length): a null child propagates null
(sequential gathering); otherwise the merged def levels
(`StructImpl::GetDefLevels`, buffer length = first child's stream length)
yield the null bitmap, elided when `null_count == 0`, and the struct length
is the first child array's length. -/
def structImplNextBatch (structDef topParent : Int)
    (children : List (Option (List Int × Nat))) : Option StructArrayModel :=
  match children.mapM (fun c => c) with
  | none => none
  | some cs =>
    let n := (cs.headD ([], 0)).1.length
    let merged := structMergedDefLevels structDef n (cs.map Prod.fst)
    let bits := structNullBits structDef topParent merged
    some
      { length := (cs.headD ([], 0)).2
        childLengths := cs.map Prod.snd
        validity := if bits.count false = 0 then none else some bits
        nullCount := bits.count false }

/-! ### `ReadTable` / `ReadRowGroup` and the invalid-index error path -/

/-- The status kinds the façade can return (arrow `Status`); the spec's
taxonomy names the bad-column-index kind `InvalidArgument`, realized by
`Status::Invalid("Invalid column index")`. -/
inductive RStatus where
  | invalid (msg : String)
  | notImplemented (msg : String)
  | ioError (msg : String)
deriving DecidableEq, Repr

/-- Modelled from the spec: `ColumnIndicesToFieldIndices` (declared in
`parquet/util/schema-util.h`, which is not under `src/`) computes "the
requested top-level field indices from the column indices via the schema" and
fails when a "requested column index [is] not in the schema", i.e. outside
`[0, num_columns)`.  `roots` is the column → top-level-field map. -/
def ColumnIndicesToFieldIndices (numColumns : Nat) (roots : Nat → Nat)
    (indices : List Int) : Option (List Nat) :=
  if indices.all (fun i => decide (0 ≤ i ∧ i < (numColumns : Int))) then
    some ((indices.map (fun i => roots i.toNat)).dedup)
  else none

/-- The columns of a materialized table, one per requested top-level field. -/
structure TableModel where
  fieldIndices : List Nat
deriving DecidableEq, Repr

/-- `FileReader::Impl::ReadTable(indices, table)`: map column indices to field
indices; on failure return `Status::Invalid("Invalid column index")`,
otherwise materialize one column per field.  (`GetSchema` is the pure schema
mapping of spec §6 and cannot fail on the modelled path.) -/
def ReadTable (numColumns : Nat) (roots : Nat → Nat) (indices : List Int) :
    Except RStatus TableModel :=
  match ColumnIndicesToFieldIndices numColumns roots indices with
  | none => .error (.invalid "Invalid column index")
  | some fi => .ok ⟨fi⟩

/-- `FileReader::Impl::ReadRowGroup(row_group_index, indices, out)`: the same
index validation as `ReadTable`, restricted to one row group. -/
def ReadRowGroup (numColumns : Nat) (roots : Nat → Nat) (rowGroupIndex : Nat)
    (indices : List Int) : Except RStatus TableModel :=
  match ColumnIndicesToFieldIndices numColumns roots indices with
  | none => .error (.invalid "Invalid column index")
  | some fi => .ok ⟨fi⟩

/-! ### `PrimitiveImpl::WrapIntoListArray`

The function walks the arrow field chain produced by `FromParquetSchema`
collecting per-level nullability, synthesizes per-depth offset and validity
builders from the definition/repetition levels, stacks the nested list
wrapper — and then leaves the assignment `*array = output;` commented out. -/

/-- An arrow field as `WrapIntoListArray` sees it: nullability plus child
fields (`type()->num_children()`). -/
inductive AField where
  | node (nullable : Bool) (children : List AField)

/-- The `while (current_field->type()->num_children() > 0)` walk: collect the
`nullable` flags down the single-child chain; more than one child is
`Status::NotImplemented`.  (The check that only LIST nesting occurs is
commented out in the source, so any single-child group is accepted.) -/
def walkNullable : AField → Except RStatus (List Bool)
  | .node n [] => .ok [n]
  | .node n [c] => (walkNullable c).map (fun l => n :: l)
  | .node _ (_ :: _ :: _) =>
    .error (.notImplemented "Fields with more than one child are not supported.")

/-- The `empty_def_level` computation: `def_level = 0; for i < list_depth:
if nullable[i] then def_level++; empty_def_level[i] = def_level; def_level++`. -/
def emptyDefLevelsAux : List Bool → Int → List Int
  | [], _ => []
  | n :: rest, defLevel =>
    let defLevel1 := if n then defLevel + 1 else defLevel
    defLevel1 :: emptyDefLevelsAux rest (defLevel1 + 1)

/-- The per-depth builders of `WrapIntoListArray`: offsets, validity bits,
null counts, and the running `values_offset`. -/
structure WrapState where
  offsetBuilders : List (List Int)
  validBuilders : List (List Bool)
  nullCounts : List Nat
  valuesOffset : Int
deriving DecidableEq, Repr

/-- The offset value appended at depth `j`: `values_offset` at the innermost
depth, otherwise the current length of depth `j+1`'s offset builder. -/
def wrapOffsetValue (depth : Nat) (j : Nat) (st : WrapState) : Int :=
  if j = depth - 1 then st.valuesOffset
  else ((st.offsetBuilders.getD (j + 1) []).length : Int)

/-- The `for (int64_t j = rep_level; j < list_depth; j++)` body with its two
`break`s: append an offset; on `empty_def_level[j] - 1 == def_levels[i]` with
a nullable level append an invalid bit and stop, otherwise append a valid bit
and stop once `empty_def_level[j] == def_levels[i]`. -/
def wrapInnerAux (emptyDef : List Int) (nullable : List Bool) (depth : Nat) (di : Int) :
    Nat → Nat → WrapState → WrapState
  | 0, _, st => st
  | k + 1, j, st =>
    let st1 := { st with
      offsetBuilders :=
        st.offsetBuilders.set j ((st.offsetBuilders.getD j []) ++ [wrapOffsetValue depth j st]) }
    if (emptyDef.getD j 0) - 1 = di ∧ nullable.getD j false = true then
      { st1 with
        validBuilders := st1.validBuilders.set j ((st1.validBuilders.getD j []) ++ [false])
        nullCounts := st1.nullCounts.set j ((st1.nullCounts.getD j 0) + 1) }
    else
      let st2 := { st1 with
        validBuilders := st1.validBuilders.set j ((st1.validBuilders.getD j []) ++ [true]) }
      if emptyDef.getD j 0 = di then st2
      else wrapInnerAux emptyDef nullable depth di k (j + 1) st2

/-- Entry point of the inner loop at `j = rep_level`; the loop runs while
`j < depth`, i.e. for at most `depth - j` iterations. -/
def wrapInnerLoop (emptyDef : List Int) (nullable : List Bool) (depth : Nat) (di : Int)
    (j : Nat) (st : WrapState) : WrapState :=
  wrapInnerAux emptyDef nullable depth di (depth - j) j st

/-- The main `for (int64_t i = 0; i < total_levels_read; i++)` loop over the
`(def, rep)` level pairs: run the inner loop when `rep < max_repetition`,
then bump `values_offset` when the definition level reaches
`values_def_level`. -/
def wrapOuterLoop (maxRep : Int) (emptyDef : List Int) (nullable : List Bool) (depth : Nat)
    (valuesDefLevel : Int) : List (Int × Int) → WrapState → WrapState
  | [], st => st
  | (d, r) :: rest, st =>
    let st1 := if r < maxRep then wrapInnerLoop emptyDef nullable depth d r.toNat st else st
    let st2 := if d ≥ valuesDefLevel then { st1 with valuesOffset := st1.valuesOffset + 1 }
               else st1
    wrapOuterLoop maxRep emptyDef nullable depth valuesDefLevel rest st2

def wrapFinalOffsetsAux (depth : Nat) : Nat → Nat → WrapState → WrapState
  | 0, _, st => st
  | k + 1, j, st =>
    wrapFinalOffsetsAux depth k (j + 1)
      { st with
        offsetBuilders :=
          st.offsetBuilders.set j ((st.offsetBuilders.getD j []) ++ [wrapOffsetValue depth j st]) }

/-- The trailing "add the final offset to all lists" loop, `j` ascending over
`[0, depth)`. -/
def wrapFinalOffsets (depth : Nat) (j : Nat) (st : WrapState) : WrapState :=
  wrapFinalOffsetsAux depth (depth - j) j st

/-- The nested `ListArray` wrapper stacked around the primitive array
(`output` in the source). -/
inductive WrappedArray (α : Type) where
  | base (a : α)
  | listWrap (length : Int) (offsets : List Int) (child : WrappedArray α)
      (validBits : List Bool) (nullCount : Nat)
deriving DecidableEq, Repr

/-- The `for (int64_t j = list_depth - 1; j >= 0; j--)` wrapping loop:
`buildChainAux st (j + 1) out` wraps `out` at depth `j` and recurses
downwards. -/
def buildChainAux {α : Type} (st : WrapState) : Nat → WrappedArray α → WrappedArray α
  | 0, out => out
  | j + 1, out =>
    buildChainAux st j
      (.listWrap ((st.offsetBuilders.getD j []).length - 1) (st.offsetBuilders.getD j [])
        out (st.validBuilders.getD j []) (st.nullCounts.getD j 0))

/-- The final value of the `array` out-parameter together with the built (and
discarded) nested wrapper. -/
structure WrapResult (α : Type) where
  out : α
  discarded : Option (WrappedArray α)
deriving DecidableEq, Repr

/-- `PrimitiveImpl::WrapIntoListArray`: with `max_repetition_level() > 0`,
walk the field chain, build per-depth offsets/validity from the level
streams, stack the `ListArray` wrapper — and leave `*array` untouched (the
assignment `*array = output;` is commented out in the source). -/
def WrapIntoListArray {α : Type} (maxDef maxRep : Int) (field : AField)
    (defs reps : List Int) (arr : α) : Except RStatus (WrapResult α) :=
  if maxRep > 0 then
    match walkNullable field with
    | .error e => .error e
    | .ok nullable =>
      let depth := nullable.length - 1
      let valuesDefLevel :=
        if nullable.getD (nullable.length - 1) false then maxDef - 1 else maxDef
      let emptyDef := emptyDefLevelsAux (nullable.take depth) 0
      let st0 : WrapState :=
        ⟨List.replicate depth [], List.replicate depth [], List.replicate depth 0, 0⟩
      let st1 := wrapOuterLoop maxRep emptyDef nullable depth valuesDefLevel
        (defs.zip reps) st0
      let st2 := wrapFinalOffsets depth 0 st1
      let output := buildChainAux st2 depth (.base arr)
      .ok ⟨arr, some output⟩
  else .ok ⟨arr, none⟩

/-! ### `ListImpl` — derived levels, offsets, and validity

The child exposes `(def, rep)` level streams (pairs below) plus its produced
array.  `ListImpl` groups child positions into lists: a run continues while
the child rep level is `≥ child_max_repetition`; for a direct child that
bound is `list_rep_level + 1`, i.e. the run continues while `rep > listRep`.
`min_space_def_level_` comes from `GetTopNonRepeatedParentLevel` (in
`parquet/util/schema-util.h`, not under `src/`) and is kept as a parameter. -/

/-- One `do { ... } while (rep >= child_max_repetition)` run: split off the
positions continuing the current list. -/
def takeGroup (listRep : Int) : List (Int × Int) → List (Int × Int) × List (Int × Int)
  | [] => ([], [])
  | p :: rest =>
    if p.2 > listRep then
      let gr := takeGroup listRep rest
      (p :: gr.1, gr.2)
    else ([], p :: rest)

def listGroupsFuel (listRep : Int) : Nat → List (Int × Int) → List (List (Int × Int))
  | 0, _ => []
  | _ + 1, [] => []
  | fuel + 1, p :: rest =>
    let gr := takeGroup listRep rest
    (p :: gr.1) :: listGroupsFuel listRep fuel gr.2

/-- The outer `while (i < child_length)` grouping of `ListImpl::GetDefLevels`
and `GetRepLevels`: each iteration consumes one position plus its
continuation run. -/
def listGroups (listRep : Int) (child : List (Int × Int)) : List (List (Int × Int)) :=
  listGroupsFuel listRep child.length child

/-- `ListImpl::GetDefLevels`: per list, `min(list_def_level, max over the
list's positions of the child def level)`, the max folded from `-1`. -/
def listDefLevels (listDef listRep : Int) (child : List (Int × Int)) : List Int :=
  (listGroups listRep child).map (fun g => min listDef (g.foldl (fun m p => max m p.1) (-1)))

/-- `ListImpl::GetRepLevels`: per list, `min(list_rep_level, min over the
list's positions of the child rep level)`. -/
def listRepLevels (listRep : Int) (child : List (Int × Int)) : List Int :=
  (listGroups listRep child).map (fun g => g.foldl (fun m p => min m p.2) listRep)

/-- `ListImpl::DefLevelsToNullArray`: `def >= list_def_level` appends a set
bit, else `def >= min_space_def_level` appends a null bit, else the position
is skipped. -/
def listNullBits (listDef minSpace : Int) (levels : List Int) : List Bool :=
  levels.filterMap (fun d =>
    if d ≥ listDef then some true
    else if d ≥ minSpace then some false
    else none)

/-- The loop of `ListImpl::RepLevelsToOffsetsArray` over the list's own def
levels, carrying the unconsumed child stream (`child_level_idx`) and
`child_val_idx`.  A defined non-empty list (`def == list_def_level` and the
child def at the cursor exceeds it) walks its whole run, advancing the value
index; otherwise one child position is skipped.  An offset entry is appended
when `def >= min_space_def_level`. -/
def offsetsWalk (listDef listRep minSpace : Int) :
    List Int → List (Int × Int) → Int → List Int
  | [], _, _ => []
  | d :: ds, child, v =>
    let step : List (Int × Int) × Int :=
      match child with
      | [] => ([], v)
      | c :: rest =>
        if d = listDef ∧ c.1 > listDef then
          let gr := takeGroup listRep rest
          (gr.2, v + 1 + gr.1.length)
        else (rest, v)
    (if d ≥ minSpace then [step.2] else [])
      ++ offsetsWalk listDef listRep minSpace ds step.1 step.2

/-- `ListImpl::RepLevelsToOffsetsArray`: a leading `0` followed by the walk's
entries; the produced list length is `offset_builder.length() - 1`. -/
def listOffsets (listDef listRep minSpace : Int) (child : List (Int × Int)) : List Int :=
  0 :: offsetsWalk listDef listRep minSpace (listDefLevels listDef listRep child) child 0

/-- A list array as `ListImpl::NextBatch` assembles it. -/
structure ListArrayModel where
  length : Int
  offsets : List Int
  childLength : Nat
  validity : Option (List Bool)
  nullCount : Nat
deriving DecidableEq, Repr

/-- `ListImpl::NextBatch`: a null child batch propagates null; otherwise the
null bitmap (elided when `null_count == 0`) and the offsets buffer are built
from the level streams and wrapped around the child array. -/
def listImplNextBatch (listDef listRep minSpace : Int)
    (childBatch : Option (List (Int × Int) × Nat)) : Option ListArrayModel :=
  match childBatch with
  | none => none
  | some (child, childLen) =>
    let bits := listNullBits listDef minSpace (listDefLevels listDef listRep child)
    let offsets := listOffsets listDef listRep minSpace child
    some
      { length := (offsets.length : Int) - 1
        offsets := offsets
        childLength := childLen
        validity := if bits.count false = 0 then none else some bits
        nullCount := bits.count false }

/-- The number of slots the spaced leaf decode appends for a def-level
stream (`ReadFLBABatch`, `max_definition_level > 0` branch): for nullable
elements under a repeated parent a null slot at `max_def - 1` (without a
repeated parent at any `def < max_def`), and a value slot at
`def == max_def`.  This is the length of the produced leaf array. -/
def flbaSlotCount (maxDef : Int) (nullableElements repeatedParent : Bool)
    (defs : List Int) : Nat :=
  (defs.filter (fun d =>
    (nullableElements && ((repeatedParent && decide (d = maxDef - 1))
        || (!repeatedParent && decide (d < maxDef))))
      || decide (d = maxDef))).length

/-! ### `ParallelFor` — worker interleaving model

`ParallelFor(nthreads, num_tasks, func)` starts workers sharing an atomic
task counter, plus a mutex-protected pair `error_occurred` / `error`.  Each
worker loops: test `!error_occurred`, claim `task_counter.fetch_add(1)`
(breaking once past `num_tasks`), run the task, and on failure take the lock,
set the flag, store its own status and break.  The model interleaves the
workers' atomic actions under an explicit schedule of worker ids; `fails t`
says whether task `t` fails, and a failing task `t` reports error `t` (a
stand-in for its `Status`). -/

inductive WorkerPc where
  | atCheck
  | atClaim
  | atRun (task : Nat)
  | atWrite (task : Nat)
  | done
deriving DecidableEq, Repr

inductive PEvent where
  | claim (worker task : Nat)
  | setError (worker task : Nat)
deriving DecidableEq, Repr

structure ParState where
  taskCounter : Nat
  errorOccurred : Bool
  error : Option Nat
  pcs : Nat → WorkerPc
  events : List PEvent

/-- One atomic action of worker `w`. -/
def pstep (fails : Nat → Bool) (numTasks : Nat) (s : ParState) (w : Nat) : ParState :=
  match s.pcs w with
  | .atCheck =>
    if s.errorOccurred then { s with pcs := Function.update s.pcs w .done }
    else { s with pcs := Function.update s.pcs w .atClaim }
  | .atClaim =>
    let t := s.taskCounter
    if t ≥ numTasks then
      { s with taskCounter := t + 1, pcs := Function.update s.pcs w .done }
    else
      { s with taskCounter := t + 1, pcs := Function.update s.pcs w (.atRun t),
               events := s.events ++ [.claim w t] }
  | .atRun t =>
    if fails t then { s with pcs := Function.update s.pcs w (.atWrite t) }
    else { s with pcs := Function.update s.pcs w .atCheck }
  | .atWrite t =>
    { s with errorOccurred := true, error := some t,
             pcs := Function.update s.pcs w .done,
             events := s.events ++ [.setError w t] }
  | .done => s

/-- All workers start at the loop head; ids past `nthreads` do not exist
(modelled as already joined). -/
def parInit (nthreads : Nat) : ParState :=
  ⟨0, false, none, fun w => if w < nthreads then .atCheck else .done, []⟩

def runSchedule (fails : Nat → Bool) (numTasks : Nat) (sched : List Nat)
    (s : ParState) : ParState :=
  sched.foldl (pstep fails numTasks) s

/-- `ParallelFor`'s return value once every worker has joined:
`if (error_occurred) return error; return Status::OK();`. -/
def parResult (s : ParState) : Option Nat :=
  if s.errorOccurred then s.error else none

/-- The task of the first error that set the shared flag. -/
def firstSetError (events : List PEvent) : Option Nat :=
  events.findSome? (fun e => match e with | .setError _ t => some t | .claim _ _ => none)

/-- The task of the last error written to the shared `error` slot. -/
def lastSetError (events : List PEvent) : Option Nat :=
  events.foldl (fun acc e => match e with | .setError _ t => some t | .claim _ _ => acc) none

/-- Whether some task is claimed after some error has set the flag. -/
def existsClaimAfterError : List PEvent → Bool
  | [] => false
  | e :: rest =>
    ((match e with
      | .setError _ _ => rest.any (fun e' => match e' with | .claim _ _ => true | .setError _ _ => false)
      | .claim _ _ => false) : Bool)
      || existsClaimAfterError rest

end ParquetArrow

/-! ## Theorems -/

namespace ParquetArrow

theorem wrap64_eq_self {z : Int} (h1 : -(2 ^ 63) ≤ z) (h2 : z < 2 ^ 63) : wrap64 z = z := by
  unfold wrap64
  rw [Int.emod_eq_of_lt (by omega) (by omega)]
  omega

/-- C6: reading a nanosecond timestamp from INT96 converts each value as
`(days_since_julian − 2440588) · 86400000000000 + nanos_of_day`, where the
days are the high 32 bits and the nanos the low 64 bits of the int96
(provided the arithmetic stays inside `int64`). -/
theorem impala_timestamp_to_nanoseconds_spec (t : Int96)
    (hv2 : t.v2 < 2 ^ 32)
    (hp1 : -(2 ^ 63) ≤ ((t.v2 : Int) - 2440588) * kNanosecondsInADay)
    (hp2 : ((t.v2 : Int) - 2440588) * kNanosecondsInADay < 2 ^ 63)
    (hs1 : -(2 ^ 63) ≤ ((t.v2 : Int) - 2440588) * kNanosecondsInADay
            + int64OfBits (t.v0 % 2 ^ 32 + t.v1 % 2 ^ 32 * 2 ^ 32))
    (hs2 : ((t.v2 : Int) - 2440588) * kNanosecondsInADay
            + int64OfBits (t.v0 % 2 ^ 32 + t.v1 % 2 ^ 32 * 2 ^ 32) < 2 ^ 63) :
    impala_timestamp_to_nanoseconds t
      = ((t.v2 : Int) - 2440588) * 86400000000000
        + int64OfBits (t.v0 % 2 ^ 32 + t.v1 % 2 ^ 32 * 2 ^ 32) := by
  simp only [impala_timestamp_to_nanoseconds]
  rw [Nat.mod_eq_of_lt hv2]
  have hdays : wrap64 ((t.v2 : Int) - kJulianToUnixEpochDays) = (t.v2 : Int) - 2440588 := by
    apply wrap64_eq_self
    · have : (0 : Int) ≤ (t.v2 : Int) := Int.natCast_nonneg _
      unfold kJulianToUnixEpochDays
      omega
    · have : ((t.v2 : Int)) < 2 ^ 32 := by exact_mod_cast hv2
      unfold kJulianToUnixEpochDays
      omega
  rw [hdays]
  rw [wrap64_eq_self hp1 hp2, wrap64_eq_self hs1 hs2]
  unfold kNanosecondsInADay
  ring

/-- Witness for C6: the int96 `(days_since_julian = 2440589, nanos_of_day = 1)`
yields int64 nanos `86400000000001`. -/
theorem impala_timestamp_to_nanoseconds_spec_witness :
    impala_timestamp_to_nanoseconds ⟨1, 0, 2440589⟩ = 86400000000001 := by
  rw [impala_timestamp_to_nanoseconds_spec ⟨1, 0, 2440589⟩ (by norm_num)
    (by norm_num [kNanosecondsInADay]) (by norm_num [kNanosecondsInADay])
    (by norm_num [kNanosecondsInADay, int64OfBits]) (by norm_num [kNanosecondsInADay, int64OfBits])]
  norm_num [int64OfBits]

theorem structFoldChild_getD (structDef : Int) (init c : List Int) (i : Nat)
    (hc : c.length = init.length) (hi : i < init.length) :
    (structFoldChild structDef init c).getD i 0
      = max (init.getD i 0) (min (c.getD i 0) structDef) := by
  simp only [structFoldChild, List.getD_eq_getElem?_getD, List.getElem?_zipWith']
  rw [List.getElem?_eq_getElem hi, List.getElem?_eq_getElem (by omega)]
  simp

theorem structFold_pointwise (structDef : Int) (children : List (List Int)) (init : List Int)
    (h : ∀ c ∈ children, c.length = init.length) (i : Nat) (hi : i < init.length) :
    (children.foldl (structFoldChild structDef) init).getD i 0
      = children.foldl (fun a c => max a (min (c.getD i 0) structDef)) (init.getD i 0) := by
  induction children generalizing init with
  | nil => simp
  | cons c cs ih =>
    have hc : c.length = init.length := h c (by simp)
    have hlen : (structFoldChild structDef init c).length = init.length := by
      simp [structFoldChild, hc]
    rw [List.foldl_cons, List.foldl_cons,
      ih (structFoldChild structDef init c)
        (fun c' hc' => by rw [hlen]; exact h c' (by simp [hc']))
        (by omega),
      structFoldChild_getD structDef init c i hc hi]

/-- C4: the merged definition-level stream of a struct assembler satisfies,
at each position `i`, `merged[i] = fold of max (min child_def[i] structDef)
over the children starting from the −1 sentinel`. -/
theorem structMergedDefLevels_spec (structDef : Int) (n : Nat) (children : List (List Int))
    (hlen : ∀ c ∈ children, c.length = n) (i : Nat) (hi : i < n) :
    (structMergedDefLevels structDef n children).getD i 0
      = children.foldl (fun acc c => max acc (min (c.getD i 0) structDef)) (-1) := by
  unfold structMergedDefLevels
  rw [structFold_pointwise structDef children (List.replicate n (-1))
    (by simpa using hlen) i (by simpa using hi)]
  congr 1
  simp [List.getD_eq_getElem?_getD, List.getElem?_replicate, hi]

theorem foldl_add_map (g : Nat → Nat) : ∀ (js : List Nat) (init : Nat),
    js.foldl (fun acc j => acc + g j) init = init + (js.map g).sum
  | [], init => by simp
  | j :: js, init => by
    rw [List.foldl_cons, foldl_add_map g js (init + g j)]
    simp [Nat.add_assoc]

theorem getD_of_lt {α : Type} (l : List α) (i : Nat) (d : α) (h : i < l.length) :
    l.getD i d = l[i] := by
  rw [List.getD_eq_getElem?_getD, List.getElem?_eq_getElem h]
  rfl

theorem columnTotalValues_eq_sum (meta : List (List Nat)) (col : Nat) :
    columnTotalValues meta col = (columnChunks meta col).sum := by
  unfold columnTotalValues columnChunks
  rw [foldl_add_map (fun j => chunkNumValues meta j col) (List.range meta.length) 0]
  rw [Nat.zero_add]
  congr 1
  apply List.ext_getElem
  · simp
  · intro i h1 h2
    have hi : i < meta.length := by simpa using h1
    simp only [List.getElem_map, List.getElem_range]
    unfold chunkNumValues
    rw [getD_of_lt meta i [] hi]

theorem fullFileBatchSize_eq_maxOfSums (meta : List (List Nat)) (roots : Nat → Nat)
    (fieldRoot : Nat) (indices : List Nat) :
    fullFileBatchSize meta roots fieldRoot indices
      = specC1MaxOfSumsBatchSize meta roots fieldRoot indices := by
  unfold fullFileBatchSize specC1MaxOfSumsBatchSize
  apply List.foldl_ext
  intro b col _
  by_cases h : roots col = fieldRoot <;> simp [h]

theorem init_le_maxOfSumsFold (meta : List (List Nat)) (roots : Nat → Nat) (fieldRoot : Nat) :
    ∀ (indices : List Nat) (init : Nat),
      init ≤ indices.foldl
        (fun m col => if roots col = fieldRoot then max m (columnTotalValues meta col) else m)
        init
  | [], init => le_refl init
  | col :: rest, init => by
    rw [List.foldl_cons]
    refine le_trans ?_ (init_le_maxOfSumsFold meta roots fieldRoot rest _)
    by_cases h : roots col = fieldRoot <;> simp [h]

theorem total_le_maxOfSumsFold (meta : List (List Nat)) (roots : Nat → Nat) (fieldRoot : Nat) :
    ∀ (indices : List Nat) (init : Nat) (col : Nat), col ∈ indices → roots col = fieldRoot →
      columnTotalValues meta col
        ≤ indices.foldl
            (fun m c => if roots c = fieldRoot then max m (columnTotalValues meta c) else m)
            init
  | [], _, _, hmem, _ => absurd hmem (List.not_mem_nil _)
  | c :: rest, init, col, hmem, hroot => by
    rw [List.foldl_cons]
    rcases List.mem_cons.mp hmem with rfl | hmem'
    · refine le_trans ?_ (init_le_maxOfSumsFold meta roots fieldRoot rest _)
      simp [hroot]
    · exact total_le_maxOfSumsFold meta roots fieldRoot rest _ col hmem' hroot

theorem readLoop_total : ∀ (qs : List Nat) (c vtr : Nat), c + qs.sum ≤ vtr →
    (readLoop vtr (some c) qs).1 = c + qs.sum := by
  intro qs
  induction qs with
  | nil =>
    intro c vtr h
    simp only [List.sum_nil, Nat.add_zero] at h ⊢
    unfold readLoop
    by_cases hv : vtr = 0
    · simp [hv]
      omega
    · simp [hv, h]
  | cons q qs ih =>
    intro c vtr h
    simp only [List.sum_cons] at h ⊢
    unfold readLoop
    by_cases hv : vtr = 0
    · simp [hv]
      omega
    · have hcv : c ≤ vtr := by omega
      have ih' := ih q (vtr - c) (by omega)
      simp [hv, hcv, ih']

/-- C1 (amended): for a full-file read of a top-level field, the batch size
is the maximum over the field's leaves of the sum across row groups of that
leaf's column-chunk value counts, and a single `next_batch` call of that size
fully drains every leaf of the subtree. -/
theorem fullFileBatchSize_amended (meta : List (List Nat)) (roots : Nat → Nat)
    (fieldRoot : Nat) (indices : List Nat) (hmeta : meta ≠ []) :
    fullFileBatchSize meta roots fieldRoot indices
        = specC1MaxOfSumsBatchSize meta roots fieldRoot indices
      ∧ ∀ col ∈ indices, roots col = fieldRoot →
          (primitiveNextBatch (primFromChunks false (columnChunks meta col))
              (fullFileBatchSize meta roots fieldRoot indices)).1
            = some (.primitive (columnTotalValues meta col)) := by
  refine ⟨fullFileBatchSize_eq_maxOfSums meta roots fieldRoot indices, ?_⟩
  intro col hmem hroot
  have hle : columnTotalValues meta col ≤ fullFileBatchSize meta roots fieldRoot indices := by
    rw [fullFileBatchSize_eq_maxOfSums]
    exact total_le_maxOfSumsFold meta roots fieldRoot indices 0 col hmem hroot
  obtain ⟨c, rest, hchunks⟩ : ∃ c rest, columnChunks meta col = c :: rest := by
    cases hm : meta with
    | nil => exact absurd hm hmeta
    | cons rg rgs => exact ⟨rg.getD col 0, rgs.map (fun r => r.getD col 0), by simp [columnChunks, hm]⟩
  rw [hchunks]
  have hsum : columnTotalValues meta col = c + rest.sum := by
    rw [columnTotalValues_eq_sum, hchunks]; simp
  have hread := readLoop_total rest c (fullFileBatchSize meta roots fieldRoot indices)
    (by rw [hsum] at hle; exact hle)
  simp [primFromChunks, primitiveNextBatch, hread, hsum]

/-- Witness for C1's amended theorem: concrete two-row-group metadata. -/
theorem fullFileBatchSize_amended_witness :
    ([[3, 1], [1, 3]] : List (List Nat)) ≠ []
      ∧ (primitiveNextBatch (primFromChunks false (columnChunks [[3, 1], [1, 3]] 0))
            (fullFileBatchSize [[3, 1], [1, 3]] (fun _ => 0) 0 [0, 1])).1
          = some (.primitive (columnTotalValues [[3, 1], [1, 3]] 0)) :=
  ⟨by decide,
   (fullFileBatchSize_amended [[3, 1], [1, 3]] (fun _ => 0) 0 [0, 1] (by decide)).2
     0 (by decide) rfl⟩

/-- Counterexample for C1 as stated: with chunk value counts `[[3,1],[1,3]]`
and both columns under the same root field, the code computes
`max(3+1, 1+3) = 4`, while the claim's sum-across-row-groups-of-maxima
formula gives `3 + 3 = 6`. -/
theorem fullFileBatchSize_counterexample :
    fullFileBatchSize [[3, 1], [1, 3]] (fun _ => 0) 0 [0, 1] = 4
      ∧ specC1SumOfMaxBatchSize [[3, 1], [1, 3]] (fun _ => 0) 0 [0, 1] = 6
      ∧ fullFileBatchSize [[3, 1], [1, 3]] (fun _ => 0) 0 [0, 1]
          ≠ specC1SumOfMaxBatchSize [[3, 1], [1, 3]] (fun _ => 0) 0 [0, 1] := by
  refine ⟨?_, ?_, ?_⟩ <;> decide

mutual

theorem asmNextBatch_none_iff_aux : ∀ (t : Asm) (n : Nat),
    (asmNextBatch t n).1 = none ↔ asmExhausted t = true
  | .prim st, n => by
    unfold asmNextBatch primitiveNextBatch asmExhausted
    cases hcr : st.columnReader with
    | none => simp
    | some c => by_cases hna : st.isNA <;> simp [hna]
  | .listNode c, n => by
    have ih := asmNextBatch_none_iff_aux c n
    unfold asmNextBatch asmExhausted
    cases h : (asmNextBatch c n).1 with
    | none => simpa [h] using ih
    | some a => simpa [h] using ih
  | .structNode cs, n => by
    have ih := structGather_none_iff_aux cs n
    unfold asmNextBatch asmExhausted
    cases h : (structGather cs n).1 with
    | none => simpa [h] using ih
    | some as_ => simpa [h] using ih

theorem structGather_none_iff_aux : ∀ (cs : List Asm) (n : Nat),
    (structGather cs n).1 = none ↔ asmAnyExhausted cs = true
  | [], n => by simp [structGather, asmAnyExhausted]
  | c :: cs, n => by
    have ihc := asmNextBatch_none_iff_aux c n
    have ihs := structGather_none_iff_aux cs n
    unfold structGather asmAnyExhausted
    cases h : (asmNextBatch c n).1 with
    | none =>
      simp only [h]
      simp [← ihc, h]
    | some a =>
      cases hrest : (structGather cs n).1 with
      | none =>
        simp only [h, hrest]
        simp [← ihc, ← ihs, h, hrest]
      | some as_ =>
        simp only [h, hrest]
        simp [← ihc, ← ihs, h, hrest]

end

theorem asmAnyExhausted_iff : ∀ (cs : List Asm),
    asmAnyExhausted cs = true ↔ ∃ c ∈ cs, asmExhausted c = true
  | [] => by simp [asmAnyExhausted]
  | c :: cs => by
    unfold asmAnyExhausted
    rw [Bool.or_eq_true, asmAnyExhausted_iff cs]
    simp

/-- C5: `next_batch` returns none exactly when the source is exhausted — a
leaf returns none iff its `column_reader_` is null (all column chunks
exhausted), a list assembler returns none iff its child does, and a struct
assembler returns none iff some child does. -/
theorem nextBatch_none_iff_source_exhausted :
    (∀ (st : PrimState) (n : Nat),
        (asmNextBatch (.prim st) n).1 = none ↔ st.columnReader = none)
      ∧ (∀ (c : Asm) (n : Nat),
        (asmNextBatch (.listNode c) n).1 = none ↔ (asmNextBatch c n).1 = none)
      ∧ (∀ (cs : List Asm) (n : Nat),
        (asmNextBatch (.structNode cs) n).1 = none ↔ ∃ c ∈ cs, (asmNextBatch c n).1 = none) := by
  refine ⟨?_, ?_, ?_⟩
  · intro st n
    rw [asmNextBatch_none_iff_aux (.prim st) n]
    unfold asmExhausted
    simp [Option.isNone_iff_eq_none]
  · intro c n
    rw [asmNextBatch_none_iff_aux (.listNode c) n, asmNextBatch_none_iff_aux c n]
    simp [asmExhausted]
  · intro cs n
    rw [asmNextBatch_none_iff_aux (.structNode cs) n]
    unfold asmExhausted
    rw [asmAnyExhausted_iff cs]
    constructor
    · rintro ⟨c, hc, hex⟩
      exact ⟨c, hc, (asmNextBatch_none_iff_aux c n).mpr hex⟩
    · rintro ⟨c, hc, hnone⟩
      exact ⟨c, hc, (asmNextBatch_none_iff_aux c n).mp hnone⟩

theorem takeGroup_join (listRep : Int) : ∀ l : List (Int × Int),
    (takeGroup listRep l).1 ++ (takeGroup listRep l).2 = l
  | [] => rfl
  | p :: rest => by
    unfold takeGroup
    by_cases h : p.2 > listRep
    · simp only [if_pos h, List.cons_append, List.cons.injEq, true_and]
      exact takeGroup_join listRep rest
    · simp [if_neg h]

theorem takeGroup_fst_mem (listRep : Int) : ∀ (l : List (Int × Int)) (q : Int × Int),
    q ∈ (takeGroup listRep l).1 → q.2 > listRep
  | [], q, hq => absurd hq (List.not_mem_nil q)
  | p :: rest, q, hq => by
    unfold takeGroup at hq
    by_cases h : p.2 > listRep
    · rw [if_pos h] at hq
      rcases List.mem_cons.mp hq with rfl | hq'
      · exact h
      · exact takeGroup_fst_mem listRep rest q hq'
    · rw [if_neg h] at hq
      exact absurd hq (List.not_mem_nil q)

theorem takeGroup_snd_head (listRep : Int) : ∀ (l : List (Int × Int)) (r : Int × Int),
    (takeGroup listRep l).2.head? = some r → ¬(r.2 > listRep)
  | [], r, hr => by simp [takeGroup] at hr
  | p :: rest, r, hr => by
    unfold takeGroup at hr
    by_cases h : p.2 > listRep
    · rw [if_pos h] at hr
      exact takeGroup_snd_head listRep rest r hr
    · rw [if_neg h] at hr
      simp only [List.head?_cons, Option.some.injEq] at hr
      subst hr
      exact h

theorem takeGroup_snd_length (listRep : Int) : ∀ l : List (Int × Int),
    (takeGroup listRep l).2.length ≤ l.length
  | [] => le_refl 0
  | p :: rest => by
    unfold takeGroup
    by_cases h : p.2 > listRep
    · simp only [if_pos h]
      exact le_trans (takeGroup_snd_length listRep rest) (by simp)
    · simp [if_neg h]

theorem takeGroup_of_run (listRep : Int) : ∀ (g rest : List (Int × Int)),
    (∀ q ∈ g, q.2 > listRep) → (∀ r, rest.head? = some r → ¬(r.2 > listRep)) →
    takeGroup listRep (g ++ rest) = (g, rest)
  | [], [], _, _ => rfl
  | [], r :: rest', _, hrest => by
    have hr := hrest r (by simp)
    unfold takeGroup
    simp [if_neg hr]
  | q :: g', rest, hg, hrest => by
    have hq := hg q (by simp)
    unfold takeGroup
    simp only [List.cons_append, if_pos hq]
    rw [takeGroup_of_run listRep g' rest (fun x hx => hg x (by simp [hx])) hrest]

theorem listGroupsFuel_eq (listRep : Int) : ∀ (f₁ f₂ : Nat) (l : List (Int × Int)),
    l.length ≤ f₁ → l.length ≤ f₂ →
    listGroupsFuel listRep f₁ l = listGroupsFuel listRep f₂ l
  | f₁, f₂, [], _, _ => by
    cases f₁ <;> cases f₂ <;> rfl
  | f₁ + 1, f₂ + 1, p :: rest, h₁, h₂ => by
    unfold listGroupsFuel
    simp only [List.cons.injEq, true_and]
    exact listGroupsFuel_eq listRep f₁ f₂ (takeGroup listRep rest).2
      (le_trans (takeGroup_snd_length listRep rest) (by simpa using h₁))
      (le_trans (takeGroup_snd_length listRep rest) (by simpa using h₂))

theorem listGroups_cons (listRep : Int) (p : Int × Int) (rest : List (Int × Int)) :
    listGroups listRep (p :: rest)
      = (p :: (takeGroup listRep rest).1) :: listGroups listRep (takeGroup listRep rest).2 := by
  rw [show listGroups listRep (p :: rest)
      = (p :: (takeGroup listRep rest).1)
        :: listGroupsFuel listRep rest.length (takeGroup listRep rest).2 from rfl]
  congr 1
  show _ = listGroupsFuel listRep (takeGroup listRep rest).2.length (takeGroup listRep rest).2
  exact listGroupsFuel_eq listRep rest.length (takeGroup listRep rest).2.length
    (takeGroup listRep rest).2 (takeGroup_snd_length listRep rest) (le_refl _)

theorem init_le_foldl_max : ∀ (l : List (Int × Int)) (init : Int),
    init ≤ l.foldl (fun m p => max m p.1) init
  | [], init => le_refl init
  | p :: rest, init => by
    rw [List.foldl_cons]
    exact le_trans (le_max_left init p.1) (init_le_foldl_max rest _)

theorem le_foldl_max : ∀ (l : List (Int × Int)) (init : Int) (q : Int × Int), q ∈ l →
    q.1 ≤ l.foldl (fun m p => max m p.1) init
  | [], _, q, hq => absurd hq (List.not_mem_nil q)
  | p :: rest, init, q, hq => by
    rw [List.foldl_cons]
    rcases List.mem_cons.mp hq with rfl | hq'
    · exact le_trans (le_max_right init q.1) (init_le_foldl_max rest _)
    · exact le_foldl_max rest _ q hq'

theorem foldl_max_all_le : ∀ (l : List (Int × Int)) (init b : Int),
    init ≤ b → (∀ q ∈ l, q.1 ≤ b) → l.foldl (fun m p => max m p.1) init ≤ b
  | [], _, _, hinit, _ => hinit
  | p :: rest, init, b, hinit, hall => by
    rw [List.foldl_cons]
    exact foldl_max_all_le rest _ b (max_le hinit (hall p (by simp)))
      (fun q hq => hall q (by simp [hq]))

theorem offsetsWalk_cons (listDef listRep minSpace d : Int) (ds : List Int)
    (c : Int × Int) (restc : List (Int × Int)) (v : Int) :
    offsetsWalk listDef listRep minSpace (d :: ds) (c :: restc) v
      = (if d ≥ minSpace
          then [if d = listDef ∧ c.1 > listDef
                then v + 1 + ((takeGroup listRep restc).1.length : Int) else v]
          else [])
        ++ offsetsWalk listDef listRep minSpace ds
            (if d = listDef ∧ c.1 > listDef then (takeGroup listRep restc).2 else restc)
            (if d = listDef ∧ c.1 > listDef
              then v + 1 + ((takeGroup listRep restc).1.length : Int) else v) := by
  by_cases hcond : d = listDef ∧ c.1 > listDef <;>
    simp [offsetsWalk, hcond]

theorem offsetsWalk_spec (listDef listRep minSpace : Int) (hms : minSpace ≤ listDef) :
    ∀ (l : List (Int × Int)) (v : Int),
    (∀ p ∈ l, p.2 > listRep → p.1 > listDef) →
    List.Chain' (fun a b => b.2 > listRep → a.1 > listDef) l →
    (∀ p ∈ l, 0 ≤ p.1) →
    List.Chain' (· ≤ ·)
        (v :: offsetsWalk listDef listRep minSpace (listDefLevels listDef listRep l) l v)
      ∧ (v :: offsetsWalk listDef listRep minSpace (listDefLevels listDef listRep l) l v).getLast?
          = some (v + (l.countP (fun p => decide (p.1 > listDef)) : Int))
      ∧ (offsetsWalk listDef listRep minSpace (listDefLevels listDef listRep l) l v).length
          = (listNullBits listDef minSpace (listDefLevels listDef listRep l)).length
      ∧ ∀ i : Nat,
          (listNullBits listDef minSpace (listDefLevels listDef listRep l)).getD i true = false →
          (v :: offsetsWalk listDef listRep minSpace
              (listDefLevels listDef listRep l) l v).getD (i + 1) 0
            = (v :: offsetsWalk listDef listRep minSpace
                (listDefLevels listDef listRep l) l v).getD i 0
  | [], v, _, _, _ => by
    refine ⟨List.chain'_singleton v, ?_, rfl, ?_⟩
    · simp [listDefLevels, listGroups, listGroupsFuel, offsetsWalk]
    · intro i hb
      simp [listDefLevels, listGroups, listGroupsFuel, listNullBits] at hb
  | p :: rest0, v, hW1, hW2, hpos => by
    have hjoin : (takeGroup listRep rest0).1 ++ (takeGroup listRep rest0).2 = rest0 :=
      takeGroup_join listRep rest0
    set g := (takeGroup listRep rest0).1 with hgdef
    set rest := (takeGroup listRep rest0).2 with hrestdef
    have hD : listDefLevels listDef listRep (p :: rest0)
        = min listDef ((p :: g).foldl (fun m q => max m q.1) (-1))
          :: listDefLevels listDef listRep rest := by
      unfold listDefLevels
      rw [listGroups_cons listRep p rest0, List.map_cons]
    have hrestlen : rest.length < (p :: rest0).length :=
      Nat.lt_succ_of_le (takeGroup_snd_length listRep rest0)
    have hW1r : ∀ q ∈ rest, q.2 > listRep → q.1 > listDef := fun q hq =>
      hW1 q (by rw [← hjoin] at *; exact List.mem_cons_of_mem p (List.mem_append_right g hq))
    have hW2r : List.Chain' (fun a b => b.2 > listRep → a.1 > listDef) rest := by
      have : List.Chain' (fun a b => b.2 > listRep → a.1 > listDef) ((p :: g) ++ rest) := by
        simpa [hjoin] using hW2
      exact (List.chain'_append.mp this).2.1
    have hposr : ∀ q ∈ rest, 0 ≤ q.1 := fun q hq =>
      hpos q (by rw [← hjoin] at *; exact List.mem_cons_of_mem p (List.mem_append_right g hq))
    by_cases hp : p.1 > listDef
    -- Case A: a defined, non-empty list: the walk consumes the whole run.
    · have hMge : p.1 ≤ (p :: g).foldl (fun m q => max m q.1) (-1) :=
        le_foldl_max (p :: g) (-1) p (by simp)
      have hD0 : min listDef ((p :: g).foldl (fun m q => max m q.1) (-1)) = listDef :=
        min_eq_left (by omega)
      have ih := offsetsWalk_spec listDef listRep minSpace hms rest
        (v + 1 + (g.length : Int)) hW1r hW2r hposr
      have hwalk : offsetsWalk listDef listRep minSpace
            (listDefLevels listDef listRep (p :: rest0)) (p :: rest0) v
          = (v + 1 + (g.length : Int))
            :: offsetsWalk listDef listRep minSpace (listDefLevels listDef listRep rest) rest
                (v + 1 + (g.length : Int)) := by
        rw [hD, hD0, offsetsWalk_cons]
        rw [if_pos (⟨rfl, hp⟩ : listDef = listDef ∧ p.1 > listDef)]
        rw [if_pos (show listDef ≥ minSpace from hms)]
        rw [← hgdef, ← hrestdef]
        simp [hp]
      have hbits : listNullBits listDef minSpace
            (listDefLevels listDef listRep (p :: rest0))
          = true :: listNullBits listDef minSpace (listDefLevels listDef listRep rest) := by
        rw [hD, hD0]
        unfold listNullBits
        rw [List.filterMap_cons]
        simp
      have hcnt : (p :: rest0).countP (fun q => decide (q.1 > listDef))
          = 1 + g.length + rest.countP (fun q => decide (q.1 > listDef)) := by
        have hgcnt : g.countP (fun q => decide (q.1 > listDef)) = g.length :=
          List.countP_eq_length.mpr (fun q hq => by
            simpa using hW1 q
              (by
                have : q ∈ g ++ rest := List.mem_append_left rest hq
                rw [hjoin] at this
                exact List.mem_cons_of_mem p this)
              (takeGroup_fst_mem listRep rest0 q hq))
        rw [List.countP_cons, ← hjoin, List.countP_append, hgcnt]
        simp [hp]
        omega
      refine ⟨?_, ?_, ?_, ?_⟩
      · rw [hwalk]
        exact List.chain'_cons.mpr
          ⟨by have := Int.natCast_nonneg g.length; omega, ih.1⟩
      · rw [hwalk, List.getLast?_cons_cons, ih.2.1, hcnt]
        congr 1
        push_cast
        ring
      · rw [hwalk, hbits]
        simpa using ih.2.2.1
      · rw [hwalk, hbits]
        intro i hb
        cases i with
        | zero => simp at hb
        | succ i =>
          have := ih.2.2.2 i (by simpa using hb)
          simpa using this
    -- Case B: an absent, null, or empty list: one child position is skipped.
    · have hgnil : g = [] := by
        cases hgE : g with
        | nil => rfl
        | cons q g' =>
          exfalso
          have hq2 : q.2 > listRep :=
            takeGroup_fst_mem listRep rest0 q (by rw [← hgdef, hgE]; simp)
          have hr0 : rest0 = q :: (g' ++ rest) := by
            rw [← hjoin, hgE]
            simp
          rw [hr0] at hW2
          exact hp ((List.chain'_cons.mp hW2).1 hq2)
      have hrest0 : rest = rest0 := by
        rw [← hjoin, hgnil]
        simp
      have hM : (p :: g).foldl (fun m q => max m q.1) (-1) = p.1 := by
        rw [hgnil]
        simp only [List.foldl_cons, List.foldl_nil]
        have := hpos p (by simp)
        omega
      have hD0 : min listDef ((p :: g).foldl (fun m q => max m q.1) (-1)) = p.1 := by
        rw [hM]
        exact min_eq_right (by omega)
      have ih := offsetsWalk_spec listDef listRep minSpace hms rest v hW1r hW2r hposr
      have hwalk : offsetsWalk listDef listRep minSpace
            (listDefLevels listDef listRep (p :: rest0)) (p :: rest0) v
          = (if p.1 ≥ minSpace then [v] else [])
            ++ offsetsWalk listDef listRep minSpace (listDefLevels listDef listRep rest) rest v := by
        rw [hD, hD0, offsetsWalk_cons]
        rw [if_neg (fun (h : p.1 = listDef ∧ p.1 > listDef) => hp h.2)]
        rw [hrest0]
        simp [hp]
      have hcnt : (p :: rest0).countP (fun q => decide (q.1 > listDef))
          = rest.countP (fun q => decide (q.1 > listDef)) := by
        rw [List.countP_cons, hrest0]
        simp [hp]
      by_cases hmsp : p.1 ≥ minSpace
      · have hbits : listNullBits listDef minSpace
              (listDefLevels listDef listRep (p :: rest0))
            = decide (p.1 ≥ listDef)
              :: listNullBits listDef minSpace (listDefLevels listDef listRep rest) := by
          rw [hD, hD0]
          unfold listNullBits
          rw [List.filterMap_cons]
          by_cases hpl : p.1 ≥ listDef
          · simp [hpl]
          · simp [hpl, hmsp]
        rw [hwalk, if_pos hmsp]
        refine ⟨?_, ?_, ?_, ?_⟩
        · exact List.chain'_cons.mpr ⟨le_refl v, ih.1⟩
        · rw [List.cons_append, List.nil_append, List.getLast?_cons_cons, ih.2.1, hcnt]
        · rw [hbits]
          simpa using ih.2.2.1
        · rw [hbits]
          intro i hb
          cases i with
          | zero => rfl
          | succ i =>
            have := ih.2.2.2 i (by simpa using hb)
            simpa using this
      · have hbits : listNullBits listDef minSpace
              (listDefLevels listDef listRep (p :: rest0))
            = listNullBits listDef minSpace (listDefLevels listDef listRep rest) := by
          rw [hD, hD0]
          unfold listNullBits
          rw [List.filterMap_cons]
          have hpl : ¬(p.1 ≥ listDef) := by omega
          simp [hpl, hmsp]
        rw [hwalk, if_neg hmsp, List.nil_append]
        refine ⟨ih.1, ?_, ?_, ?_⟩
        · rw [ih.2.1, hcnt]
        · rw [hbits]
          exact ih.2.2.1
        · rw [hbits]
          exact ih.2.2.2
termination_by l => l.length

theorem countP_eq_flbaSlotCount (listDef maxDef : Int) (nullable : Bool)
    (hmax : maxDef = listDef + (if nullable then 2 else 1))
    (l : List (Int × Int)) (hb : ∀ p ∈ l, p.1 ≤ maxDef) :
    l.countP (fun p => decide (p.1 > listDef))
      = flbaSlotCount maxDef nullable true (l.map Prod.fst) := by
  unfold flbaSlotCount
  rw [← List.countP_eq_length_filter, List.countP_map]
  apply List.countP_congr
  intro p hp
  have hple := hb p hp
  cases nullable with
  | true =>
    have hm : maxDef = listDef + 2 := by simpa using hmax
    simp [Function.comp]
    omega
  | false =>
    have hm : maxDef = listDef + 1 := by simpa using hmax
    simp [Function.comp]
    omega

/-- C2: every list array a `ListImpl::NextBatch` call produces over a leaf
child has offsets that start at 0 and are non-decreasing, whose final entry
equals the child array's length, and whose defined-as-null slots (validity
bit 0) are empty: `offsets[i+1] = offsets[i]`.  The hypotheses are the Dremel
well-formedness of the child's level streams: a position continuing a list
(`rep > rep(list)`) carries a present element (`def > def(list)`), a position
followed by a continuation is itself a present element, levels are
nonnegative and bounded by the leaf `max_def`, which exceeds `def(list)` by
one plus one per optional element, and `min_space_def_level ≤ def(list)`. -/
theorem listImplNextBatch_invariants (listDef listRep minSpace maxDef : Int) (nullable : Bool)
    (child : List (Int × Int)) (arr : ListArrayModel)
    (hms : minSpace ≤ listDef)
    (hmax : maxDef = listDef + (if nullable then 2 else 1))
    (hW1 : ∀ p ∈ child, p.2 > listRep → p.1 > listDef)
    (hW2 : List.Chain' (fun a b => b.2 > listRep → a.1 > listDef) child)
    (hpos : ∀ p ∈ child, 0 ≤ p.1)
    (hbound : ∀ p ∈ child, p.1 ≤ maxDef)
    (harr : listImplNextBatch listDef listRep minSpace
        (some (child, flbaSlotCount maxDef nullable true (child.map Prod.fst))) = some arr) :
    arr.offsets.head? = some 0
      ∧ List.Chain' (· ≤ ·) arr.offsets
      ∧ arr.offsets.getLast? = some (arr.childLength : Int)
      ∧ ∀ bs : List Bool, arr.validity = some bs →
          ∀ i : Nat, bs.getD i true = false →
            arr.offsets.getD (i + 1) 0 = arr.offsets.getD i 0 := by
  have spec := offsetsWalk_spec listDef listRep minSpace hms child 0 hW1 hW2 hpos
  unfold listImplNextBatch at harr
  simp only [Option.some.injEq] at harr
  subst harr
  refine ⟨rfl, ?_, ?_, ?_⟩
  · exact spec.1
  · show (listOffsets listDef listRep minSpace child).getLast? = _
    unfold listOffsets
    rw [spec.2.1]
    rw [countP_eq_flbaSlotCount listDef maxDef nullable hmax child hbound]
    simp
  · intro bs hbs i hbit
    simp only at hbs
    by_cases hz :
        (listNullBits listDef minSpace (listDefLevels listDef listRep child)).count false = 0
    · rw [if_pos hz] at hbs
      exact absurd hbs (by simp)
    · rw [if_neg hz] at hbs
      have hbseq := Option.some.inj hbs
      subst hbseq
      exact spec.2.2.2 i hbit

/-- Witness for C2: the spec's `[null, [], [1,null,3], [4]]` example for an
optional list of optional int32 — offsets `[0,0,0,3,4]`, validity
`[0,1,1,1]`, child length 4. -/
theorem listImplNextBatch_invariants_witness :
    listImplNextBatch 1 0 0
        (some ([((0 : Int), (0 : Int)), (1, 0), (3, 0), (2, 1), (3, 1), (3, 0)],
          flbaSlotCount 3 true true
            ([((0 : Int), (0 : Int)), (1, 0), (3, 0), (2, 1), (3, 1), (3, 0)].map Prod.fst)))
        = some ⟨4, [0, 0, 0, 3, 4], 4, some [false, true, true, true], 1⟩
      ∧ ([0, 0, 0, 3, 4] : List Int).head? = some 0
      ∧ List.Chain' (· ≤ ·) ([0, 0, 0, 3, 4] : List Int)
      ∧ ([0, 0, 0, 3, 4] : List Int).getLast?
          = some ((⟨4, [0, 0, 0, 3, 4], 4, some [false, true, true, true], 1⟩
              : ListArrayModel).childLength : Int)
      ∧ ∀ bs : List Bool,
          (⟨4, [0, 0, 0, 3, 4], 4, some [false, true, true, true], 1⟩
              : ListArrayModel).validity = some bs →
          ∀ i : Nat, bs.getD i true = false →
            ([0, 0, 0, 3, 4] : List Int).getD (i + 1) 0 = ([0, 0, 0, 3, 4] : List Int).getD i 0 := by
  have harr : listImplNextBatch 1 0 0
      (some ([((0 : Int), (0 : Int)), (1, 0), (3, 0), (2, 1), (3, 1), (3, 0)],
        flbaSlotCount 3 true true
          ([((0 : Int), (0 : Int)), (1, 0), (3, 0), (2, 1), (3, 1), (3, 0)].map Prod.fst)))
      = some ⟨4, [0, 0, 0, 3, 4], 4, some [false, true, true, true], 1⟩ := by decide
  have h := listImplNextBatch_invariants 1 0 0 3 true
    [((0 : Int), (0 : Int)), (1, 0), (3, 0), (2, 1), (3, 1), (3, 0)]
    ⟨4, [0, 0, 0, 3, 4], 4, some [false, true, true, true], 1⟩
    (by decide) (by decide) (by decide)
    (by simp [List.chain'_cons]) (by decide) (by decide) harr
  exact ⟨harr, h.1, h.2.1, h.2.2.1, h.2.2.2⟩

theorem mapM_map_some {α : Type} : ∀ l : List α, (l.map some).mapM (fun c => c) = some l
  | [] => rfl
  | a :: l => by
    rw [List.map_cons, List.mapM_cons, mapM_map_some l]
    rfl

theorem structNullBits_eq (structDef topParent : Int) : ∀ levels : List Int,
    structNullBits structDef topParent levels
      = (levels.filter (fun d => decide (d ≥ structDef) || decide (d ≥ topParent))).map
          (fun d => decide (d ≥ structDef))
  | [] => rfl
  | d :: rest => by
    have ih := structNullBits_eq structDef topParent rest
    by_cases h1 : d < structDef
    · by_cases h2 : d ≥ topParent
      · have hd : decide (d ≥ structDef) = false := by simp; omega
        simp [structNullBits, List.filter_cons, h1, h2, hd] at ih ⊢
        exact ih
      · have hd : decide (d ≥ structDef) = false := by simp; omega
        have ht : decide (d ≥ topParent) = false := by simp; omega
        simp [structNullBits, List.filter_cons, h1, h2, hd, ht] at ih ⊢
        exact ih
    · have hd : decide (d ≥ structDef) = true := by simp; omega
      simp [structNullBits, List.filter_cons, h1, hd] at ih ⊢
      exact ih

/-- C3: every struct array a `StructImpl::NextBatch` call produces (children
all yielding arrays of one length `L`, as the code asserts over their level
streams) has all child lengths equal to the struct length `L`, and its
validity bit at position `i` is set iff the `i`-th non-skipped merged
definition level (those reaching `top_parent_def_level`) is at least the
struct's definition level. -/
theorem structImplNextBatch_invariants (structDef topParent : Int)
    (children : List (List Int × Nat)) (L : Nat) (arr : StructArrayModel)
    (hne : children ≠ [])
    (hlen : ∀ c ∈ children, c.2 = L)
    (harr : structImplNextBatch structDef topParent (children.map some) = some arr) :
    arr.length = L
      ∧ (∀ l ∈ arr.childLengths, l = arr.length)
      ∧ (∀ bs : List Bool, arr.validity = some bs →
          bs = ((structMergedDefLevels structDef (children.headD ([], 0)).1.length
                  (children.map Prod.fst)).filter
                  (fun d => decide (d ≥ structDef) || decide (d ≥ topParent))).map
                (fun d => decide (d ≥ structDef))
            ∧ ∀ i : Nat,
              i < ((structMergedDefLevels structDef (children.headD ([], 0)).1.length
                    (children.map Prod.fst)).filter
                    (fun d => decide (d ≥ structDef) || decide (d ≥ topParent))).length →
              (bs.getD i false = true ↔
                ((structMergedDefLevels structDef (children.headD ([], 0)).1.length
                    (children.map Prod.fst)).filter
                    (fun d => decide (d ≥ structDef) || decide (d ≥ topParent))).getD i 0
                  ≥ structDef))
      ∧ (arr.validity = none →
          ∀ d ∈ (structMergedDefLevels structDef (children.headD ([], 0)).1.length
                  (children.map Prod.fst)).filter
                  (fun d => decide (d ≥ structDef) || decide (d ≥ topParent)),
            d ≥ structDef) := by
  obtain ⟨c0, crest, rfl⟩ := List.exists_cons_of_ne_nil hne
  unfold structImplNextBatch at harr
  rw [mapM_map_some] at harr
  simp only [Option.some.injEq] at harr
  subst harr
  have hbits := structNullBits_eq structDef topParent
    (structMergedDefLevels structDef ((c0 :: crest).headD ([], 0)).1.length
      ((c0 :: crest).map Prod.fst))
  refine ⟨hlen c0 (by simp), ?_, ?_, ?_⟩
  · intro l hl
    show l = ((c0 :: crest).headD ([], 0)).2
    simp only [List.headD_cons]
    rw [hlen c0 (by simp)]
    simp only [List.mem_map] at hl
    obtain ⟨c, hc, rfl⟩ := hl
    exact hlen c hc
  · intro bs hbs
    simp only at hbs
    by_cases hz : (structNullBits structDef topParent
        (structMergedDefLevels structDef ((c0 :: crest).headD ([], 0)).1.length
          ((c0 :: crest).map Prod.fst))).count false = 0
    · rw [if_pos hz] at hbs
      exact absurd hbs (by simp)
    · rw [if_neg hz] at hbs
      have hbseq := Option.some.inj hbs
      subst hbseq
      refine ⟨hbits, ?_⟩
      intro i hi
      rw [hbits]
      rw [List.getD_eq_getElem?_getD, List.getElem?_map,
        List.getElem?_eq_getElem hi]
      rw [List.getD_eq_getElem?_getD, List.getElem?_eq_getElem hi]
      simp
  · intro hvnone d hd
    simp only at hvnone
    by_cases hz : (structNullBits structDef topParent
        (structMergedDefLevels structDef ((c0 :: crest).headD ([], 0)).1.length
          ((c0 :: crest).map Prod.fst))).count false = 0
    · by_contra hdlt
      have hfalse : (false : Bool) ∈ structNullBits structDef topParent
          (structMergedDefLevels structDef ((c0 :: crest).headD ([], 0)).1.length
            ((c0 :: crest).map Prod.fst)) := by
        rw [hbits]
        exact List.mem_map.mpr ⟨d, hd, by simp; omega⟩
      rw [← List.count_pos_iff_mem] at hfalse
      omega
    · rw [if_neg hz] at hvnone
      exact absurd hvnone (by simp)

/-- Witness for C3: two children with agreeing streams, struct def level 1,
top parent level 0; child arrays both of length 2. -/
theorem structImplNextBatch_invariants_witness :
    structImplNextBatch 1 0 ([(([1, 1, 0] : List Int), (2 : Nat)), (([1, 0, 0], 2))].map some)
        = some ⟨2, [2, 2], some [true, true, false], 1⟩
      ∧ (⟨2, [2, 2], some [true, true, false], 1⟩ : StructArrayModel).length = 2
      ∧ (∀ l ∈ (⟨2, [2, 2], some [true, true, false], 1⟩ : StructArrayModel).childLengths,
          l = (⟨2, [2, 2], some [true, true, false], 1⟩ : StructArrayModel).length) := by
  have harr : structImplNextBatch 1 0
      ([(([1, 1, 0] : List Int), (2 : Nat)), (([1, 0, 0], 2))].map some)
      = some ⟨2, [2, 2], some [true, true, false], 1⟩ := by decide
  have h := structImplNextBatch_invariants 1 0 [(([1, 1, 0] : List Int), (2 : Nat)), (([1, 0, 0], 2))]
    2 ⟨2, [2, 2], some [true, true, false], 1⟩ (by decide) (by decide) harr
  exact ⟨harr, h.1, h.2.1⟩

/-- C10: `next_batch(n)` on an NA-typed leaf whose reader is attached returns
a `NullArray` of length exactly `n` and leaves the reader state untouched
(nothing is consumed), regardless of how many records remain. -/
theorem primitiveNextBatch_NA (st : PrimState) (n : Nat) (c : Nat)
    (hna : st.isNA = true) (hcr : st.columnReader = some c) :
    primitiveNextBatch st n = (some (.nullArray n), st) := by
  unfold primitiveNextBatch
  rw [hcr]
  simp [hna]

/-- Witness for C10: two values remain but `n = 5` yields a length-5 null
array and an unchanged state. -/
theorem primitiveNextBatch_NA_witness :
    (2 : Nat) < 5
      ∧ primitiveNextBatch ⟨true, some 2, []⟩ 5 = (some (.nullArray 5), ⟨true, some 2, []⟩) :=
  ⟨by decide, primitiveNextBatch_NA ⟨true, some 2, []⟩ 5 2 rfl rfl⟩

/-- C7: every `read_table` or `read_row_group` whose requested column-index
set contains an index outside `[0, num_columns)` fails with the
invalid-argument status `Status::Invalid("Invalid column index")`. -/
theorem readTable_invalid_index (numColumns : Nat) (roots : Nat → Nat)
    (indices : List Int) (h : ∃ i ∈ indices, i < 0 ∨ (numColumns : Int) ≤ i) :
    ReadTable numColumns roots indices = .error (.invalid "Invalid column index")
      ∧ ∀ g, ReadRowGroup numColumns roots g indices
          = .error (.invalid "Invalid column index") := by
  obtain ⟨i, hmem, hout⟩ := h
  have hall : indices.all (fun i => decide (0 ≤ i ∧ i < (numColumns : Int))) = false := by
    rw [List.all_eq_false]
    exact ⟨i, hmem, by simp; omega⟩
  constructor
  · unfold ReadTable ColumnIndicesToFieldIndices
    rw [hall]
    simp
  · intro g
    unfold ReadRowGroup ColumnIndicesToFieldIndices
    rw [hall]
    simp

/-- Witness for C7: two columns, requested index 2 is out of range. -/
theorem readTable_invalid_index_witness :
    ReadTable 2 (fun _ => 0) [0, 2] = .error (.invalid "Invalid column index")
      ∧ ReadRowGroup 2 (fun _ => 0) 1 [0, 2] = .error (.invalid "Invalid column index") := by
  have h := readTable_invalid_index 2 (fun _ => 0) [0, 2] ⟨2, by decide, by decide⟩
  exact ⟨h.1, h.2 1⟩

/-- C9: every successful `WrapIntoListArray` call leaves the `array`
out-parameter unchanged; with `max_repetition_level() > 0` it builds the
nested list wrapper from the level streams but discards it (`*array = output;`
is commented out). -/
theorem wrapIntoListArray_out_unchanged {α : Type} (maxDef maxRep : Int) (field : AField)
    (defs reps : List Int) (arr : α) (r : WrapResult α)
    (h : WrapIntoListArray maxDef maxRep field defs reps arr = .ok r) :
    r.out = arr ∧ (maxRep > 0 → ∃ w, r.discarded = some w) := by
  unfold WrapIntoListArray at h
  by_cases hrep : maxRep > 0
  · rw [if_pos hrep] at h
    cases hw : walkNullable field with
    | error e => rw [hw] at h; exact absurd h (by simp)
    | ok nullable =>
      rw [hw] at h
      simp only [Except.ok.injEq] at h
      subst h
      exact ⟨rfl, fun _ => ⟨_, rfl⟩⟩
  · rw [if_neg hrep] at h
    simp only [Except.ok.injEq] at h
    subst h
    exact ⟨rfl, fun hc => absurd hc hrep⟩

/-- Witness for C9: an optional list of optional items over one present
record; the wrapper is built and discarded, the out-array (`7`) survives. -/
theorem wrapIntoListArray_out_unchanged_witness :
    WrapIntoListArray 2 1 (.node true [.node true []]) [2] [0] (7 : Nat)
        = .ok ⟨7, some (.listWrap 1 [0, 1] (.base 7) [true] 0)⟩
      ∧ (⟨7, some (.listWrap 1 [0, 1] (.base 7) [true] 0)⟩ : WrapResult Nat).out = 7
      ∧ ((1 : Int) > 0 →
          ∃ w, (⟨7, some (.listWrap 1 [0, 1] (.base 7) [true] 0)⟩ : WrapResult Nat).discarded
            = some w) := by
  have hok : WrapIntoListArray 2 1 (AField.node true [AField.node true []]) [2] [0] (7 : Nat)
      = .ok ⟨7, some (.listWrap 1 [0, 1] (.base 7) [true] 0)⟩ := by rfl
  have h := wrapIntoListArray_out_unchanged 2 1 (.node true [.node true []]) [2] [0] 7
    ⟨7, some (.listWrap 1 [0, 1] (.base 7) [true] 0)⟩ hok
  exact ⟨hok, h.1, h.2⟩

theorem lastSetError_append_claim (evs : List PEvent) (w t : Nat) :
    lastSetError (evs ++ [.claim w t]) = lastSetError evs := by
  simp [lastSetError, List.foldl_append]

theorem lastSetError_append_setError (evs : List PEvent) (w t : Nat) :
    lastSetError (evs ++ [.setError w t]) = some t := by
  simp [lastSetError, List.foldl_append]

theorem lastSetError_foldl_mem : ∀ (evs : List PEvent) (acc : Option Nat) (t : Nat),
    evs.foldl (fun acc e => match e with | .setError _ u => some u | .claim _ _ => acc) acc
        = some t →
    (∃ w, PEvent.setError w t ∈ evs) ∨ acc = some t
  | [], _, _, h => .inr h
  | e :: evs, acc, t, h => by
    cases e with
    | claim w u =>
      rcases lastSetError_foldl_mem evs acc t (by simpa using h) with ⟨w', hm⟩ | hacc
      · exact .inl ⟨w', by simp [hm]⟩
      · exact .inr hacc
    | setError w u =>
      rcases lastSetError_foldl_mem evs (some u) t (by simpa using h) with ⟨w', hm⟩ | hacc
      · exact .inl ⟨w', by simp [hm]⟩
      · exact .inl ⟨w, by simp at hacc; simp [hacc]⟩

theorem lastSetError_mem (evs : List PEvent) (t : Nat) (h : lastSetError evs = some t) :
    ∃ w, PEvent.setError w t ∈ evs := by
  rcases lastSetError_foldl_mem evs none t h with hm | hacc
  · exact hm
  · exact absurd hacc (by simp)

/-- The inductive invariant of the `ParallelFor` model: the shared `error`
slot holds the last written error; the flag is set iff some error was
written; and every running, failing, or written task was genuinely claimed,
in range, and (for written errors) failing. -/
def ParInv (fails : Nat → Bool) (numTasks : Nat) (s : ParState) : Prop :=
  s.error = lastSetError s.events
    ∧ s.errorOccurred = (lastSetError s.events).isSome
    ∧ (∀ w t, s.pcs w = .atRun t → t < numTasks ∧ ∃ w', PEvent.claim w' t ∈ s.events)
    ∧ (∀ w t, s.pcs w = .atWrite t →
        fails t = true ∧ t < numTasks ∧ ∃ w', PEvent.claim w' t ∈ s.events)
    ∧ (∀ w t, PEvent.setError w t ∈ s.events →
        fails t = true ∧ t < numTasks ∧ ∃ w', PEvent.claim w' t ∈ s.events)

theorem parInit_inv (fails : Nat → Bool) (numTasks nthreads : Nat) :
    ParInv fails numTasks (parInit nthreads) := by
  refine ⟨rfl, rfl, ?_, ?_, ?_⟩
  · intro w t h
    simp only [parInit] at h
    by_cases hw : w < nthreads <;> simp [hw] at h
  · intro w t h
    simp only [parInit] at h
    by_cases hw : w < nthreads <;> simp [hw] at h
  · intro w t h
    exact absurd h (List.not_mem_nil _)

theorem pstep_inv (fails : Nat → Bool) (numTasks : Nat) (s : ParState) (w : Nat)
    (h : ParInv fails numTasks s) : ParInv fails numTasks (pstep fails numTasks s w) := by
  obtain ⟨h1, h2, h3, h4, h5⟩ := h
  unfold pstep
  cases hpc : s.pcs w with
  | atCheck =>
    dsimp only
    by_cases hflag : s.errorOccurred = true
    · rw [if_pos hflag]
      refine ⟨h1, h2, ?_, ?_, h5⟩
      · intro w' t h'
        by_cases hw : w' = w
        · subst hw
          simp only [Function.update_same] at h'
          exact absurd h' (by simp)
        · exact h3 w' t (by simpa [Function.update_noteq hw] using h')
      · intro w' t h'
        by_cases hw : w' = w
        · subst hw
          simp only [Function.update_same] at h'
          exact absurd h' (by simp)
        · exact h4 w' t (by simpa [Function.update_noteq hw] using h')
    · rw [if_neg hflag]
      refine ⟨h1, h2, ?_, ?_, h5⟩
      · intro w' t h'
        by_cases hw : w' = w
        · subst hw
          simp only [Function.update_same] at h'
          exact absurd h' (by simp)
        · exact h3 w' t (by simpa [Function.update_noteq hw] using h')
      · intro w' t h'
        by_cases hw : w' = w
        · subst hw
          simp only [Function.update_same] at h'
          exact absurd h' (by simp)
        · exact h4 w' t (by simpa [Function.update_noteq hw] using h')
  | atClaim =>
    dsimp only
    by_cases hge : s.taskCounter ≥ numTasks
    · rw [if_pos hge]
      refine ⟨h1, h2, ?_, ?_, h5⟩
      · intro w' t h'
        by_cases hw : w' = w
        · subst hw
          simp only [Function.update_same] at h'
          exact absurd h' (by simp)
        · exact h3 w' t (by simpa [Function.update_noteq hw] using h')
      · intro w' t h'
        by_cases hw : w' = w
        · subst hw
          simp only [Function.update_same] at h'
          exact absurd h' (by simp)
        · exact h4 w' t (by simpa [Function.update_noteq hw] using h')
    · rw [if_neg hge]
      refine ⟨?_, ?_, ?_, ?_, ?_⟩
      · show s.error = lastSetError (s.events ++ [PEvent.claim w s.taskCounter])
        rwa [lastSetError_append_claim]
      · show s.errorOccurred = (lastSetError (s.events ++ [PEvent.claim w s.taskCounter])).isSome
        rwa [lastSetError_append_claim]
      · intro w' t h'
        by_cases hw : w' = w
        · subst hw
          simp only [Function.update_same] at h'
          cases h'
          exact ⟨by omega, w', by simp⟩
        · obtain ⟨hlt, w'', hw''⟩ := h3 w' t (by simpa [Function.update_noteq hw] using h')
          exact ⟨hlt, w'', by simp [hw'']⟩
      · intro w' t h'
        by_cases hw : w' = w
        · subst hw
          simp only [Function.update_same] at h'
          exact absurd h' (by simp)
        · obtain ⟨hf, hlt, w'', hw''⟩ := h4 w' t (by simpa [Function.update_noteq hw] using h')
          exact ⟨hf, hlt, w'', by simp [hw'']⟩
      · intro w' t h'
        rcases List.mem_append.mp h' with hin | hin
        · obtain ⟨hf, hlt, w'', hw''⟩ := h5 w' t hin
          exact ⟨hf, hlt, w'', by simp [hw'']⟩
        · exact absurd hin (by simp)
  | atRun t0 =>
    dsimp only
    by_cases hf : fails t0 = true
    · rw [if_pos hf]
      refine ⟨h1, h2, ?_, ?_, h5⟩
      · intro w' t h'
        by_cases hw : w' = w
        · subst hw
          simp only [Function.update_same] at h'
          exact absurd h' (by simp)
        · exact h3 w' t (by simpa [Function.update_noteq hw] using h')
      · intro w' t h'
        by_cases hw : w' = w
        · subst hw
          simp only [Function.update_same] at h'
          obtain rfl : t0 = t := by cases h'; rfl
          obtain ⟨hlt, hcl⟩ := h3 _ t0 hpc
          exact ⟨hf, hlt, hcl⟩
        · exact h4 w' t (by simpa [Function.update_noteq hw] using h')
    · rw [if_neg hf]
      refine ⟨h1, h2, ?_, ?_, h5⟩
      · intro w' t h'
        by_cases hw : w' = w
        · subst hw
          simp only [Function.update_same] at h'
          exact absurd h' (by simp)
        · exact h3 w' t (by simpa [Function.update_noteq hw] using h')
      · intro w' t h'
        by_cases hw : w' = w
        · subst hw
          simp only [Function.update_same] at h'
          exact absurd h' (by simp)
        · exact h4 w' t (by simpa [Function.update_noteq hw] using h')
  | atWrite t0 =>
    dsimp only
    refine ⟨?_, ?_, ?_, ?_, ?_⟩
    · show some t0 = lastSetError (s.events ++ [PEvent.setError w t0])
      rw [lastSetError_append_setError]
    · show true = (lastSetError (s.events ++ [PEvent.setError w t0])).isSome
      rw [lastSetError_append_setError]
      rfl
    · intro w' t h'
      by_cases hw : w' = w
      · subst hw
        simp only [Function.update_same] at h'
        exact absurd h' (by simp)
      · obtain ⟨hlt, w'', hw''⟩ := h3 w' t (by simpa [Function.update_noteq hw] using h')
        exact ⟨hlt, w'', by simp [hw'']⟩
    · intro w' t h'
      by_cases hw : w' = w
      · subst hw
        simp only [Function.update_same] at h'
        exact absurd h' (by simp)
      · obtain ⟨hf, hlt, w'', hw''⟩ := h4 w' t (by simpa [Function.update_noteq hw] using h')
        exact ⟨hf, hlt, w'', by simp [hw'']⟩
    · intro w' t h'
      rcases List.mem_append.mp h' with hin | hin
      · obtain ⟨hf, hlt, w'', hw''⟩ := h5 w' t hin
        exact ⟨hf, hlt, w'', by simp [hw'']⟩
      · simp only [List.mem_singleton, PEvent.setError.injEq] at hin
        obtain ⟨-, ht⟩ := hin
        obtain ⟨hf, hlt, w'', hw''⟩ := h4 _ t0 hpc
        exact ⟨by rwa [ht], by rwa [ht], w'', by rw [ht]; simp [hw'']⟩
  | done => exact ⟨h1, h2, h3, h4, h5⟩


theorem runSchedule_inv (fails : Nat → Bool) (numTasks : Nat) :
    ∀ (sched : List Nat) (s : ParState), ParInv fails numTasks s →
      ParInv fails numTasks (runSchedule fails numTasks sched s)
  | [], s, h => h
  | w :: sched, s, h =>
    runSchedule_inv fails numTasks sched (pstep fails numTasks s w)
      (pstep_inv fails numTasks s w h)

/-- C8 (amended): for every schedule of worker interleavings, the status
`ParallelFor` reports after all workers join is the error of the *last*
failing task to write the shared flag (any one of the concurrent failures —
each a genuinely claimed, in-range, failing task); and a worker that observes
the error flag at its loop check joins immediately without claiming another
task. -/
theorem parallelFor_error_reporting (fails : Nat → Bool) (numTasks nthreads : Nat)
    (sched : List Nat) :
    parResult (runSchedule fails numTasks sched (parInit nthreads))
        = lastSetError (runSchedule fails numTasks sched (parInit nthreads)).events
      ∧ (∀ e, parResult (runSchedule fails numTasks sched (parInit nthreads)) = some e →
          fails e = true ∧ e < numTasks
            ∧ ∃ w', PEvent.claim w' e
                ∈ (runSchedule fails numTasks sched (parInit nthreads)).events)
      ∧ (∀ (s : ParState) (w : Nat), s.pcs w = .atCheck → s.errorOccurred = true →
          pstep fails numTasks s w = { s with pcs := Function.update s.pcs w .done }) := by
  obtain ⟨h1, h2, _, _, h5⟩ :=
    runSchedule_inv fails numTasks sched (parInit nthreads)
      (parInit_inv fails numTasks nthreads)
  refine ⟨?_, ?_, ?_⟩
  · unfold parResult
    by_cases hflag : (runSchedule fails numTasks sched (parInit nthreads)).errorOccurred
    · rw [if_pos hflag, h1]
    · rw [if_neg hflag]
      have hB : (runSchedule fails numTasks sched (parInit nthreads)).errorOccurred = false := by
        rwa [Bool.not_eq_true] at hflag
      rw [hB] at h2
      cases hls : lastSetError (runSchedule fails numTasks sched (parInit nthreads)).events with
      | none => rfl
      | some t => rw [hls] at h2; simp at h2
  · intro e he
    unfold parResult at he
    by_cases hflag : (runSchedule fails numTasks sched (parInit nthreads)).errorOccurred
    · rw [if_pos hflag] at he
      rw [h1] at he
      obtain ⟨w, hw⟩ := lastSetError_mem _ e he
      exact h5 w e hw
    · rw [if_neg hflag] at he
      exact absurd he (by simp)
  · intro s w hpc hflag
    unfold pstep
    rw [hpc, if_pos hflag]

/-- Witness for C8's amended theorem at a concrete two-worker schedule in
which both tasks fail. -/
theorem parallelFor_error_reporting_witness :
    parResult (runSchedule (fun _ => true) 2 [0, 0, 0, 1, 0, 1, 1, 1] (parInit 2))
        = lastSetError (runSchedule (fun _ => true) 2 [0, 0, 0, 1, 0, 1, 1, 1] (parInit 2)).events
      ∧ ((fun _ => true) 1 = true ∧ 1 < 2
          ∧ ∃ w', PEvent.claim w' 1
              ∈ (runSchedule (fun _ => true) 2 [0, 0, 0, 1, 0, 1, 1, 1] (parInit 2)).events) :=
  ⟨(parallelFor_error_reporting (fun _ => true) 2 2 [0, 0, 0, 1, 0, 1, 1, 1]).1,
   (parallelFor_error_reporting (fun _ => true) 2 2 [0, 0, 0, 1, 0, 1, 1, 1]).2.1 1 (by decide)⟩

/-- Counterexample for C8 as stated: a complete two-worker schedule where
both tasks fail.  Worker 0's error (task 0) sets the flag first, but worker 1
— which passed its check before the flag was set — claims task 1 afterwards,
fails, and overwrites the shared error; the reported error is task 1's, not
the first to set the flag. -/
theorem parallelFor_counterexample :
    (runSchedule (fun _ => true) 2 [0, 0, 0, 1, 0, 1, 1, 1] (parInit 2)).pcs 0 = .done
      ∧ (runSchedule (fun _ => true) 2 [0, 0, 0, 1, 0, 1, 1, 1] (parInit 2)).pcs 1 = .done
      ∧ parResult (runSchedule (fun _ => true) 2 [0, 0, 0, 1, 0, 1, 1, 1] (parInit 2)) = some 1
      ∧ firstSetError
          (runSchedule (fun _ => true) 2 [0, 0, 0, 1, 0, 1, 1, 1] (parInit 2)).events = some 0
      ∧ (some (1 : Nat) ≠ some (0 : Nat))
      ∧ existsClaimAfterError
          (runSchedule (fun _ => true) 2 [0, 0, 0, 1, 0, 1, 1, 1] (parInit 2)).events = true := by
  refine ⟨?_, ?_, ?_, ?_, ?_, ?_⟩ <;> decide

/-- Witness for C4 at a concrete input: two children, struct def level 2. -/
theorem structMergedDefLevels_spec_witness :
    (structMergedDefLevels 2 3 [[3, 1, 0], [2, 0, 3]]).getD 1 0
        = [[3, 1, 0], [2, 0, 3]].foldl (fun acc c => max acc (min (c.getD 1 0) 2)) (-1)
      ∧ (structMergedDefLevels 2 3 [[3, 1, 0], [2, 0, 3]]).getD 1 0 = 1 :=
  ⟨structMergedDefLevels_spec 2 3 [[3, 1, 0], [2, 0, 3]] (by decide) 1 (by decide),
   by decide⟩

end ParquetArrow
